import Mathlib

/-!
Shallow embedding of the coin-flip simulation library (src/src/lib.rs).

Modelling choices:
* Rust usize is modelled by Nat; the separate u64-wrapping variants
  (suffix _u64) model the release-profile wraparound of usize::pow at
  width 64 explicitly via % 2 ^ 64.
* Rust String values here are always sequences of the ASCII characters
  H and T; they are modelled as List Char, ordered by List.Lex (· < ·),
  which agrees with Rust's byte-lexicographic String order on ASCII.
* BTreeMap String usize is modelled as a sorted association list
  List (List Char × Nat); incr models results.entry(key).or_insert(0) += 1
  (update in place when the key is present, otherwise insert at the
  ordered position).  collect() of the enumerated outcomes is the map
  seedTally; since the outcome list is strictly sorted, the resulting
  list is exactly the BTreeMap's entry sequence.
* f64 division count / iterations is modelled exactly in ℚ when
  iterations > 0; the 0.0 / 0.0 = NaN case (iterations = 0) is modelled
  as none : Option ℚ.
* rand::random() draws are an explicit oracle draw : Nat → Nat → Coin,
  draw t j being the j-th flip of trial t; theorems quantify over all
  oracles.
-/

namespace CoinFlipSim

/-- Model of the Rust enum Coin (lib.rs lines 172-176). -/
inductive Coin where
  | Heads
  | Tails
  deriving DecidableEq

/-- Display impl of Coin (lib.rs lines 188-197): Heads prints H, Tails prints T. -/
def Coin.toChar : Coin → Char
  | Coin.Heads => 'H'
  | Coin.Tails => 'T'

/-- Model of get_num_outcomes (lib.rs lines 88-91): 2 to the power flips_per_iteration. -/
def get_num_outcomes (flips_per_iteration : Nat) : Nat :=
  2 ^ flips_per_iteration

/-- Body of the outer loop of get_all_outcomes (lib.rs lines 64-74): the outcome string for
index i, with the symbol at loop position j decided by (i / (num_outcomes / 2 ^ j)) % 2. -/
def outcomeAt (flips_per_iteration i : Nat) : List Char :=
  (List.range' 1 flips_per_iteration).map (fun j =>
    if (i / (get_num_outcomes flips_per_iteration / 2 ^ j)) % 2 = 0 then 'H' else 'T')

/-- Model of get_all_outcomes (lib.rs lines 59-77). -/
def get_all_outcomes (flips_per_iteration : Nat) : List (List Char) :=
  (List.range (get_num_outcomes flips_per_iteration)).map (outcomeAt flips_per_iteration)

/-- Model of get_num_outcomes under 64-bit usize with wrapping arithmetic
(the release-profile semantics of usize::pow): the exponent is first truncated
by the cast flips_per_iteration as u32 (mod 2 ^ 32, lib.rs line 90), then the
power is reduced mod 2 ^ 64. -/
def get_num_outcomes_u64 (flips_per_iteration : Nat) : Nat :=
  2 ^ (flips_per_iteration % 2 ^ 32) % 2 ^ 64

/-- Model of get_all_outcomes under 64-bit usize with wrapping arithmetic: every
pow call truncates its exponent by the as u32 cast (mod 2 ^ 32) and reduces the
result mod 2 ^ 64. -/
def get_all_outcomes_u64 (flips_per_iteration : Nat) : List (List Char) :=
  (List.range (get_num_outcomes_u64 flips_per_iteration)).map (fun i =>
    (List.range' 1 flips_per_iteration).map (fun j =>
      if (i / (get_num_outcomes_u64 flips_per_iteration / (2 ^ (j % 2 ^ 32) % 2 ^ 64))) % 2 = 0
      then 'H' else 'T'))

/-- Model of the struct EmpiricalResult (lib.rs lines 142-145).  probability is the
f64 value (count as f64) / (iterations as f64), modelled exactly in ℚ; none models
the NaN produced by 0.0 / 0.0 when iterations = 0. -/
structure EmpiricalResult where
  count : Nat
  probability : Option ℚ
  deriving DecidableEq

/-- Model of EmpiricalResult::new (lib.rs lines 148-155). -/
def EmpiricalResult.new (count iterations : Nat) : EmpiricalResult :=
  { count := count
    probability :=
      if iterations = 0 then none else some ((count : ℚ) / (iterations : ℚ)) }

/-- Model of EmpiricalResult::expected (lib.rs lines 158-163): integer floor division
of iterations by the number of outcomes, then EmpiricalResult::new. -/
def EmpiricalResult.expected (flips_per_iteration iterations : Nat) : EmpiricalResult :=
  EmpiricalResult.new (iterations / get_num_outcomes flips_per_iteration) iterations

/-- Model of the struct CoinFlipResult (lib.rs lines 96-100); the BTreeMap results
is its ordered entry list. -/
structure CoinFlipResult where
  iterations : Nat
  expected : EmpiricalResult
  results : List (List Char × EmpiricalResult)
  deriving DecidableEq

/-- Model of CoinFlipResult::new (lib.rs lines 103-109). -/
def CoinFlipResult.new (iterations : Nat) (expected : EmpiricalResult)
    (results : List (List Char × EmpiricalResult)) : CoinFlipResult :=
  { iterations := iterations, expected := expected, results := results }

/-- Model of one increment results.entry(flips).or_insert(0) += 1 (lib.rs line 35) on
the sorted entry list of a BTreeMap String usize: update the matching entry when the
key is present, otherwise insert the key with count 1 at its ordered position. -/
def incr : List (List Char × Nat) → List Char → List (List Char × Nat)
  | [], key => [(key, 1)]
  | e :: rest, key =>
    if e.1 = key then (e.1, e.2 + 1) :: rest
    else if List.Lex (· < ·) key e.1 then (key, 1) :: e :: rest
    else e :: incr rest key

/-- Model of one trial (lib.rs lines 31-34): the k flips of the trial, in draw order,
rendered as characters. -/
def trialString (flips_per_iteration : Nat) (draw : Nat → Coin) : List Char :=
  (List.range flips_per_iteration).map (fun j => (draw j).toChar)

/-- Model of the tally map seeded with every enumerated outcome at count 0
(lib.rs lines 24-28). -/
def seedTally (flips_per_iteration : Nat) : List (List Char × Nat) :=
  (get_all_outcomes flips_per_iteration).map (fun o => (o, 0))

/-- Model of the trial loop (lib.rs lines 30-36): iterations trials, each incrementing
the tally at its trial string; draw t j is the j-th random flip of trial t. -/
def runTally (flips_per_iteration iterations : Nat) (draw : Nat → Nat → Coin) :
    List (List Char × Nat) :=
  (List.range iterations).foldl
    (fun m t => incr m (trialString flips_per_iteration (draw t)))
    (seedTally flips_per_iteration)

/-- Model of run (lib.rs lines 23-47). -/
def run (flips_per_iteration iterations : Nat) (draw : Nat → Nat → Coin) : CoinFlipResult :=
  CoinFlipResult.new iterations
    (EmpiricalResult.expected flips_per_iteration iterations)
    ((runTally flips_per_iteration iterations draw).map (fun e =>
      (e.1, EmpiricalResult.new e.2 iterations)))

/-- Association-list lookup, the model of BTreeMap::get on the entry list. -/
def lookupA {α : Type} : List (List Char × α) → List Char → Option α
  | [], _ => none
  | e :: rest, key => if e.1 = key then some e.2 else lookupA rest key

/-- Sum of the counts of a tally list. -/
def sumCounts (m : List (List Char × Nat)) : Nat :=
  (m.map (fun e => e.2)).sum

/-- Unit-interval membership for a modelled f64 probability: a NaN (none) is not
in the interval. -/
def probInUnitInterval (p : Option ℚ) : Prop :=
  ∃ q, p = some q ∧ 0 ≤ q ∧ q ≤ 1

lemma two_pow_div_two_pow {j k : Nat} (h : j ≤ k) : 2 ^ k / 2 ^ j = 2 ^ (k - j) :=
  Nat.pow_div h (by norm_num)

lemma outcomeAt_succ_lt {k i : Nat} (h : i < 2 ^ k) :
    outcomeAt (k + 1) i = 'H' :: outcomeAt k i := by
  unfold outcomeAt get_num_outcomes
  rw [List.range'_succ, List.map_cons]
  have hhead : i / (2 ^ (k + 1) / 2 ^ 1) % 2 = 0 := by
    rw [two_pow_div_two_pow (by omega)]
    have hk : k + 1 - 1 = k := by omega
    rw [hk, Nat.div_eq_of_lt h]
  have htail : (List.range' (1 + 1) k).map
      (fun j => if i / (2 ^ (k + 1) / 2 ^ j) % 2 = 0 then 'H' else 'T') =
      (List.range' 1 k).map
      (fun j => if i / (2 ^ k / 2 ^ j) % 2 = 0 then 'H' else 'T') := by
    rw [← List.map_add_range' 1 1 k, List.map_map]
    apply List.map_congr_left
    intro j hj
    have hjk : j ≤ k := by
      have := (List.mem_range'_1.mp hj).2
      omega
    have hdiv : (2 : Nat) ^ (k + 1) / 2 ^ (1 + j) = 2 ^ k / 2 ^ j := by
      rw [two_pow_div_two_pow (by omega : 1 + j ≤ k + 1), two_pow_div_two_pow hjk]
      congr 1
      omega
    simp only [Function.comp]
    rw [hdiv]
  simp only [hhead, if_pos, htail]

lemma outcomeAt_succ_ge {k r : Nat} (h : r < 2 ^ k) :
    outcomeAt (k + 1) (2 ^ k + r) = 'T' :: outcomeAt k r := by
  unfold outcomeAt get_num_outcomes
  rw [List.range'_succ, List.map_cons]
  have hpos : (0 : Nat) < 2 ^ k := Nat.pos_pow_of_pos k (by norm_num)
  have hhead : (2 ^ k + r) / (2 ^ (k + 1) / 2 ^ 1) % 2 = 1 := by
    rw [two_pow_div_two_pow (by omega)]
    have hk : k + 1 - 1 = k := by omega
    rw [hk, Nat.add_comm (2 ^ k) r, Nat.add_div_right r hpos, Nat.div_eq_of_lt h]
  have htail : (List.range' (1 + 1) k).map
      (fun j => if (2 ^ k + r) / (2 ^ (k + 1) / 2 ^ j) % 2 = 0 then 'H' else 'T') =
      (List.range' 1 k).map
      (fun j => if r / (2 ^ k / 2 ^ j) % 2 = 0 then 'H' else 'T') := by
    rw [← List.map_add_range' 1 1 k, List.map_map]
    apply List.map_congr_left
    intro j hj
    have hj1 : 1 ≤ j := (List.mem_range'_1.mp hj).1
    have hjk : j ≤ k := by
      have := (List.mem_range'_1.mp hj).2
      omega
    have hdiv : (2 : Nat) ^ (k + 1) / 2 ^ (1 + j) = 2 ^ (k - j) := by
      rw [two_pow_div_two_pow (by omega : 1 + j ≤ k + 1)]
      congr 1
      omega
    have hsplit : (2 : Nat) ^ k = 2 ^ (k - j) * 2 ^ j := by
      rw [← pow_add]
      congr 1
      omega
    have hdpos : (0 : Nat) < 2 ^ (k - j) := Nat.pos_pow_of_pos _ (by norm_num)
    have hnum : (2 ^ k + r) / 2 ^ (k - j) = 2 ^ j + r / 2 ^ (k - j) := by
      rw [hsplit, Nat.mul_add_div hdpos]
    have hmod : (2 ^ j + r / 2 ^ (k - j)) % 2 = r / 2 ^ (k - j) % 2 := by
      have hj2 : (2 : Nat) ^ j = 2 * 2 ^ (j - 1) := by
        rw [← pow_succ']
        congr 1
        omega
      rw [hj2, Nat.mul_add_mod]
    simp only [Function.comp]
    rw [hdiv, hnum, hmod, two_pow_div_two_pow hjk]
  have hne : (2 ^ k + r) / (2 ^ (k + 1) / 2 ^ 1) % 2 ≠ 0 := by
    rw [hhead]
    norm_num
  simp only [hne, if_neg, htail, if_false, eq_self_iff_true]

lemma get_all_outcomes_zero : get_all_outcomes 0 = [[]] := rfl

lemma get_all_outcomes_succ (k : Nat) :
    get_all_outcomes (k + 1) =
      (get_all_outcomes k).map (fun s => 'H' :: s) ++
      (get_all_outcomes k).map (fun s => 'T' :: s) := by
  unfold get_all_outcomes get_num_outcomes
  have hsplit : (2 : Nat) ^ (k + 1) = 2 ^ k + 2 ^ k := by
    rw [pow_succ, Nat.mul_two]
  rw [hsplit, List.range_add, List.map_append, List.map_map, List.map_map, List.map_map]
  congr 1
  · apply List.map_congr_left
    intro i hi
    exact outcomeAt_succ_lt (List.mem_range.mp hi)
  · apply List.map_congr_left
    intro r hr
    simp only [Function.comp]
    exact outcomeAt_succ_ge (List.mem_range.mp hr)

lemma length_get_all_outcomes (k : Nat) : (get_all_outcomes k).length = 2 ^ k := by
  unfold get_all_outcomes get_num_outcomes
  simp

lemma length_of_mem_get_all_outcomes {k : Nat} {s : List Char}
    (hs : s ∈ get_all_outcomes k) : s.length = k := by
  unfold get_all_outcomes at hs
  obtain ⟨i, hi, rfl⟩ := List.mem_map.mp hs
  unfold outcomeAt
  simp

lemma mem_get_all_outcomes_of {k : Nat} {s : List Char} (hlen : s.length = k)
    (hc : ∀ c ∈ s, c = 'H' ∨ c = 'T') : s ∈ get_all_outcomes k := by
  induction k generalizing s with
  | zero =>
    rw [get_all_outcomes_zero]
    simp [List.length_eq_zero.mp hlen]
  | succ k ih =>
    cases s with
    | nil => simp at hlen
    | cons c t =>
      have hlt : t.length = k := by simpa using hlen
      have ht : t ∈ get_all_outcomes k :=
        ih hlt (fun x hx => hc x (List.mem_cons_of_mem _ hx))
      rw [get_all_outcomes_succ]
      rcases hc c (List.mem_cons_self c t) with hH | hT
      · subst hH
        exact List.mem_append_left _ (List.mem_map_of_mem _ ht)
      · subst hT
        exact List.mem_append_right _ (List.mem_map_of_mem _ ht)

lemma sorted_map_cons {c : Char} {l : List (List Char)}
    (h : List.Sorted (List.Lex (· < ·)) l) :
    List.Sorted (List.Lex (· < ·)) (l.map (fun s => c :: s)) := by
  rw [List.Sorted, List.pairwise_map]
  exact h.imp (fun hab => List.Lex.cons hab)

lemma sorted_get_all_outcomes (k : Nat) :
    List.Sorted (List.Lex (· < ·)) (get_all_outcomes k) := by
  induction k with
  | zero =>
    rw [get_all_outcomes_zero]
    exact List.sorted_singleton _
  | succ k ih =>
    rw [get_all_outcomes_succ, List.Sorted, List.pairwise_append]
    refine ⟨sorted_map_cons ih, sorted_map_cons ih, ?_⟩
    intro a ha b hb
    obtain ⟨sa, _, rfl⟩ := List.mem_map.mp ha
    obtain ⟨sb, _, rfl⟩ := List.mem_map.mp hb
    exact List.Lex.rel (by decide)

lemma nodup_get_all_outcomes (k : Nat) : (get_all_outcomes k).Nodup :=
  (sorted_get_all_outcomes k).nodup

lemma get_all_outcomes_getD {k i : Nat} (hi : i < 2 ^ k) :
    (get_all_outcomes k).getD i [] = outcomeAt k i := by
  have hlen : i < (get_all_outcomes k).length := by
    rw [length_get_all_outcomes]
    exact hi
  rw [List.getD_eq_getElem _ _ hlen]
  unfold get_all_outcomes
  simp

lemma outcomeAt_getD {k i j : Nat} (hj1 : 1 ≤ j) (hj2 : j ≤ k) :
    (outcomeAt k i).getD (j - 1) 'H' =
      if i / 2 ^ (k - j) % 2 = 0 then 'H' else 'T' := by
  unfold outcomeAt get_num_outcomes
  have hlen : j - 1 < ((List.range' 1 k).map (fun j =>
      if i / (2 ^ k / 2 ^ j) % 2 = 0 then 'H' else 'T')).length := by
    simp
    omega
  rw [List.getD_eq_getElem _ _ hlen, List.getElem_map, List.getElem_range']
  have hidx : 1 + 1 * (j - 1) = j := by omega
  rw [hidx, two_pow_div_two_pow hj2]

/-- Key sequence of an association list. -/
def keysOf {α : Type} (m : List (List Char × α)) : List (List Char) :=
  m.map Prod.fst

lemma keysOf_cons {α : Type} (e : List Char × α) (m : List (List Char × α)) :
    keysOf (e :: m) = e.1 :: keysOf m := rfl

lemma sumCounts_nil : sumCounts [] = 0 := rfl

lemma sumCounts_cons (e : List Char × Nat) (m : List (List Char × Nat)) :
    sumCounts (e :: m) = e.2 + sumCounts m := by
  simp [sumCounts]

lemma trialString_mem (k : Nat) (draw : Nat → Coin) :
    trialString k draw ∈ get_all_outcomes k := by
  apply mem_get_all_outcomes_of
  · unfold trialString
    simp
  · intro c hc
    unfold trialString at hc
    obtain ⟨j, _, rfl⟩ := List.mem_map.mp hc
    cases draw j <;> simp [Coin.toChar]

lemma sumCounts_incr (m : List (List Char × Nat)) (key : List Char) :
    sumCounts (incr m key) = sumCounts m + 1 := by
  induction m with
  | nil => simp [incr, sumCounts]
  | cons e rest ih =>
    unfold incr
    by_cases h1 : e.1 = key
    · rw [if_pos h1, sumCounts_cons, sumCounts_cons]
      omega
    · rw [if_neg h1]
      by_cases h2 : List.Lex (· < ·) key e.1
      · rw [if_pos h2]
        simp [sumCounts_cons]
        omega
      · rw [if_neg h2, sumCounts_cons, sumCounts_cons, ih]
        omega

lemma keysOf_incr {m : List (List Char × Nat)} {key : List Char}
    (hs : List.Sorted (List.Lex (· < ·)) (keysOf m)) (hmem : key ∈ keysOf m) :
    keysOf (incr m key) = keysOf m := by
  induction m with
  | nil => simp [keysOf] at hmem
  | cons e rest ih =>
    unfold incr
    by_cases h1 : e.1 = key
    · rw [if_pos h1, keysOf_cons, keysOf_cons]
    · rw [if_neg h1]
      rw [keysOf_cons] at hmem hs
      have hkey : key ∈ keysOf rest := by
        rcases List.mem_cons.mp hmem with heq | hm
        · exact absurd heq.symm h1
        · exact hm
      have hlex : List.Lex (· < ·) e.1 key :=
        (List.sorted_cons.mp hs).1 key hkey
      have h2 : ¬ List.Lex (· < ·) key e.1 := asymm hlex
      rw [if_neg h2, keysOf_cons, keysOf_cons, ih (List.sorted_cons.mp hs).2 hkey]

lemma lookupA_incr_ne {m : List (List Char × Nat)} {key key' : List Char}
    (h : key' ≠ key) : lookupA (incr m key) key' = lookupA m key' := by
  induction m with
  | nil =>
    have hk : key ≠ key' := fun heq => h heq.symm
    simp [incr, lookupA, hk]
  | cons e rest ih =>
    unfold incr
    by_cases h1 : e.1 = key
    · have hne : e.1 ≠ key' := by
        rw [h1]
        exact fun heq => h heq.symm
      rw [if_pos h1]
      simp [lookupA, hne]
    · rw [if_neg h1]
      by_cases h2 : List.Lex (· < ·) key e.1
      · have hk : key ≠ key' := fun heq => h heq.symm
        rw [if_pos h2]
        simp [lookupA, hk]
      · rw [if_neg h2]
        by_cases h3 : e.1 = key'
        · simp [lookupA, h3]
        · simp [lookupA, h3, ih]

lemma lookupA_map_of_list {l : List (List Char)} {o : List Char} (ho : o ∈ l) :
    lookupA (l.map (fun s => (s, 0))) o = some 0 := by
  induction l with
  | nil => cases ho
  | cons a rest ih =>
    rcases List.mem_cons.mp ho with rfl | hm
    · simp [lookupA]
    · by_cases ha : a = o
      · simp [lookupA, ha]
      · simp [lookupA, ha, ih hm]

lemma keysOf_seedTally (k : Nat) : keysOf (seedTally k) = get_all_outcomes k := by
  unfold keysOf seedTally
  rw [List.map_map]
  apply List.map_id'

lemma sumCounts_seedTally (k : Nat) : sumCounts (seedTally k) = 0 := by
  unfold seedTally
  induction get_all_outcomes k with
  | nil => rfl
  | cons a rest ih => simpa [sumCounts_cons] using ih

lemma lookupA_seedTally {k : Nat} {o : List Char} (ho : o ∈ get_all_outcomes k) :
    lookupA (seedTally k) o = some 0 :=
  lookupA_map_of_list ho

lemma sumCounts_foldl (f : Nat → List Char) (ts : List Nat) :
    ∀ m : List (List Char × Nat),
      sumCounts (ts.foldl (fun m t => incr m (f t)) m) = sumCounts m + ts.length := by
  induction ts with
  | nil => simp
  | cons t ts ih =>
    intro m
    simp only [List.foldl_cons, List.length_cons]
    rw [ih (incr m (f t)), sumCounts_incr]
    omega

lemma keysOf_foldl {k : Nat} (f : Nat → List Char) (hf : ∀ t, f t ∈ get_all_outcomes k)
    (ts : List Nat) :
    ∀ m : List (List Char × Nat),
      keysOf m = get_all_outcomes k →
      keysOf (ts.foldl (fun m t => incr m (f t)) m) = get_all_outcomes k := by
  induction ts with
  | nil => exact fun m hm => hm
  | cons t ts ih =>
    intro m hm
    simp only [List.foldl_cons]
    apply ih
    rw [keysOf_incr (by rw [hm]; exact sorted_get_all_outcomes k) (by rw [hm]; exact hf t), hm]

lemma lookupA_foldl_ne (f : Nat → List Char) (o : List Char) (ts : List Nat)
    (hne : ∀ t ∈ ts, f t ≠ o) :
    ∀ m : List (List Char × Nat),
      lookupA (ts.foldl (fun m t => incr m (f t)) m) o = lookupA m o := by
  induction ts with
  | nil => exact fun m => rfl
  | cons t ts ih =>
    intro m
    simp only [List.foldl_cons]
    rw [ih (fun x hx => hne x (List.mem_cons_of_mem _ hx)) (incr m (f t)),
      lookupA_incr_ne (fun heq => hne t (List.mem_cons_self t ts) heq.symm)]

lemma count_le_sumCounts {m : List (List Char × Nat)} {e : List Char × Nat}
    (he : e ∈ m) : e.2 ≤ sumCounts m := by
  induction m with
  | nil => cases he
  | cons a rest ih =>
    rw [sumCounts_cons]
    rcases List.mem_cons.mp he with rfl | hm
    · omega
    · have := ih hm
      omega

lemma sumCounts_runTally (k n : Nat) (draw : Nat → Nat → Coin) :
    sumCounts (runTally k n draw) = n := by
  unfold runTally
  rw [sumCounts_foldl, sumCounts_seedTally, List.length_range]
  omega

lemma keysOf_runTally (k n : Nat) (draw : Nat → Nat → Coin) :
    keysOf (runTally k n draw) = get_all_outcomes k := by
  unfold runTally
  exact keysOf_foldl _ (fun t => trialString_mem k (draw t)) _ _ (keysOf_seedTally k)

lemma lookupA_map_new {m : List (List Char × Nat)} {o : List Char} (n : Nat) :
    lookupA (m.map (fun e => (e.1, EmpiricalResult.new e.2 n))) o =
      (lookupA m o).map (fun c => EmpiricalResult.new c n) := by
  induction m with
  | nil => rfl
  | cons e rest ih =>
    by_cases h : e.1 = o
    · simp [lookupA, h]
    · simp [lookupA, h, ih]

lemma lookupA_runTally {k n : Nat} {draw : Nat → Nat → Coin} {o : List Char}
    (ho : o ∈ get_all_outcomes k)
    (hne : ∀ t, t < n → trialString k (draw t) ≠ o) :
    lookupA (runTally k n draw) o = some 0 := by
  unfold runTally
  rw [lookupA_foldl_ne _ _ _ (fun t ht => hne t (List.mem_range.mp ht)),
    lookupA_seedTally ho]

lemma keysOf_run_results (k n : Nat) (draw : Nat → Nat → Coin) :
    keysOf (run k n draw).results = get_all_outcomes k := by
  unfold run CoinFlipResult.new keysOf
  rw [List.map_map]
  exact keysOf_runTally k n draw

lemma runTally_zero_flips (n : Nat) (draw : Nat → Nat → Coin) :
    runTally 0 n draw = [([], n)] := by
  unfold runTally seedTally
  rw [get_all_outcomes_zero]
  have hfold : ∀ (ts : List Nat) (c : Nat),
      ts.foldl (fun m t => incr m (trialString 0 (draw t))) [([], c)] =
        [([], c + ts.length)] := by
    intro ts
    induction ts with
    | nil => intro c; simp
    | cons t ts ih =>
      intro c
      simp only [List.foldl_cons]
      rw [show incr [(([] : List Char), c)] (trialString 0 (draw t)) = [([], c + 1)] from
        by simp [incr, trialString], ih]
      simp only [List.length_cons]
      have harith : c + 1 + ts.length = c + (ts.length + 1) := by omega
      rw [harith]
  simpa using hfold (List.range n) 0

/-- C1: get_all_outcomes k returns exactly 2 ^ k strings, each of length k, sorted
ascending (lexicographic, H before T) with no duplicates, in binary-counting order:
the symbol at position j of the outcome at index i is H exactly when
i / 2 ^ (k - j) is even; and get_all_outcomes 3 is the eight listed strings. -/
theorem claim_C1 (k : Nat) :
    (get_all_outcomes k).length = 2 ^ k ∧
    (∀ s ∈ get_all_outcomes k, s.length = k) ∧
    List.Sorted (List.Lex (· < ·)) (get_all_outcomes k) ∧
    (get_all_outcomes k).Nodup ∧
    (∀ i, i < 2 ^ k → ∀ j, 1 ≤ j → j ≤ k →
      ((get_all_outcomes k).getD i []).getD (j - 1) 'H' =
        if i / 2 ^ (k - j) % 2 = 0 then 'H' else 'T') ∧
    get_all_outcomes 3 =
      [['H','H','H'], ['H','H','T'], ['H','T','H'], ['H','T','T'],
       ['T','H','H'], ['T','H','T'], ['T','T','H'], ['T','T','T']] := by
  refine ⟨length_get_all_outcomes k, fun s hs => length_of_mem_get_all_outcomes hs,
    sorted_get_all_outcomes k, nodup_get_all_outcomes k, ?_, by decide⟩
  intro i hi j hj1 hj2
  rw [get_all_outcomes_getD hi, outcomeAt_getD hj1 hj2]

/-- C1 witness: the binary-counting formula evaluated at k = 2, index 1, position 2. -/
theorem claim_C1_witness :
    ((get_all_outcomes 2).getD 1 []).getD (2 - 1) 'H' =
      (if 1 / 2 ^ (2 - 2) % 2 = 0 then 'H' else 'T') :=
  (claim_C1 2).2.2.2.2.1 1 (by decide) 2 (by decide) (by decide)

/-- C2: for every k, iterations > 0, and draw oracle, the counts over all entries of
run(k, iterations).results sum to iterations: every trial is tallied exactly once. -/
theorem claim_C2 (k iterations : Nat) (draw : Nat → Nat → Coin)
    (_hpos : 0 < iterations) :
    ((run k iterations draw).results.map (fun e => e.2.count)).sum = iterations := by
  have h := sumCounts_runTally k iterations draw
  unfold sumCounts at h
  unfold run CoinFlipResult.new
  simpa [List.map_map, Function.comp, EmpiricalResult.new] using h

/-- C2 witness at k = 1, iterations = 2, all draws Heads. -/
theorem claim_C2_witness :
    ((run 1 2 (fun _ _ => Coin.Heads)).results.map (fun e => e.2.count)).sum = 2 :=
  claim_C2 1 2 (fun _ _ => Coin.Heads) (by decide)

/-- C3: the key sequence of run(k, iterations).results is exactly get_all_outcomes k
(so the key set and the enumerated outcome set coincide), and when iterations > 0 an
enumerated outcome produced by no trial keeps count 0 and probability 0. -/
theorem claim_C3 (k iterations : Nat) (draw : Nat → Nat → Coin) :
    keysOf (run k iterations draw).results = get_all_outcomes k ∧
    (0 < iterations → ∀ o ∈ get_all_outcomes k,
      (∀ t, t < iterations → trialString k (draw t) ≠ o) →
      lookupA (run k iterations draw).results o =
        some { count := 0, probability := some 0 }) := by
  refine ⟨keysOf_run_results k iterations draw, ?_⟩
  intro hpos o ho hne
  have hzero : lookupA (runTally k iterations draw) o = some 0 :=
    lookupA_runTally ho hne
  unfold run CoinFlipResult.new
  rw [lookupA_map_new, hzero]
  have hne0 : iterations ≠ 0 := Nat.pos_iff_ne_zero.mp hpos
  simp [EmpiricalResult.new, hne0]

/-- C3 witness: at k = 1, one all-Heads trial, the outcome T is never observed and
keeps count 0 and probability 0. -/
theorem claim_C3_witness :
    lookupA (run 1 1 (fun _ _ => Coin.Heads)).results ['T'] =
      some { count := 0, probability := some 0 } :=
  (claim_C3 1 1 (fun _ _ => Coin.Heads)).2 (by decide) ['T'] (by decide) (by decide)

/-- C4: expected.count is the integer floor division iterations / 2 ^ k, and
expected.probability is expected.count divided by iterations (the re-derived
quotient, not the closed form 1 / 2 ^ k). -/
theorem claim_C4 (k iterations : Nat) (draw : Nat → Nat → Coin)
    (hpos : 0 < iterations) :
    (run k iterations draw).expected.count = iterations / 2 ^ k ∧
    (run k iterations draw).expected.probability =
      some (((iterations / 2 ^ k : Nat) : ℚ) / (iterations : ℚ)) := by
  have hne0 : iterations ≠ 0 := Nat.pos_iff_ne_zero.mp hpos
  unfold run CoinFlipResult.new EmpiricalResult.expected EmpiricalResult.new
    get_num_outcomes
  exact ⟨rfl, by simp [hne0]⟩

/-- C4 witness at k = 1, iterations = 3: expected.count = 1 and probability 1 / 3. -/
theorem claim_C4_witness :
    (run 1 3 (fun _ _ => Coin.Heads)).expected.count = 3 / 2 ^ 1 ∧
    (run 1 3 (fun _ _ => Coin.Heads)).expected.probability =
      some (((3 / 2 ^ 1 : Nat) : ℚ) / (3 : ℚ)) :=
  claim_C4 1 3 (fun _ _ => Coin.Heads) (by decide)

/-- C5 counterexample: run 1 0 does not fail; it returns the complete CoinFlipResult
with iterations 0, both outcomes present with count 0 and NaN (none) probability,
contradicting the claim that an InvalidArgument error occurs and no result is
returned. -/
theorem claim_C5_counterexample :
    run 1 0 (fun _ _ => Coin.Heads) =
      CoinFlipResult.new 0 { count := 0, probability := none }
        [(['H'], { count := 0, probability := none }),
         (['T'], { count := 0, probability := none })] := by
  decide

/-- C5 amended: run(k, 0) does not fail with InvalidArgument; it returns a complete
CoinFlipResult whose expected result and every results entry have count 0 and NaN
(none) probability. -/
theorem claim_C5_amended (k : Nat) (draw : Nat → Nat → Coin) :
    run k 0 draw =
      CoinFlipResult.new 0 { count := 0, probability := none }
        ((get_all_outcomes k).map
          (fun o => (o, { count := 0, probability := none }))) := by
  unfold run runTally CoinFlipResult.new EmpiricalResult.expected EmpiricalResult.new
    seedTally
  simp [List.map_map]

/-- C6 counterexample: with 64-bit wrapping usize arithmetic, 2 ^ 64 wraps to 0 and
get_all_outcomes returns the empty vector for k = 64 instead of failing with an
OverflowError. -/
theorem claim_C6_counterexample :
    get_num_outcomes_u64 64 = 0 ∧ get_all_outcomes_u64 64 = [] := by
  constructor
  · decide
  · unfold get_all_outcomes_u64
    rw [show get_num_outcomes_u64 64 = 0 from by decide]
    rfl

/-- C6 amended: under 64-bit wrapping usize semantics, for every k from the word
size 64 up to (but excluding) the u32 exponent-cast bound 2 ^ 32, the computed
outcome count 2 ^ k wraps to 0, so get_all_outcomes silently returns the empty
vector; no OverflowError value exists in the library. -/
theorem claim_C6_amended (k : Nat) (h64 : 64 ≤ k) (h32 : k < 2 ^ 32) :
    get_num_outcomes_u64 k = 0 ∧ get_all_outcomes_u64 k = [] := by
  have h0 : get_num_outcomes_u64 k = 0 := by
    unfold get_num_outcomes_u64
    rw [Nat.mod_eq_of_lt h32]
    exact Nat.mod_eq_zero_of_dvd (pow_dvd_pow 2 h64)
  refine ⟨h0, ?_⟩
  unfold get_all_outcomes_u64
  rw [h0]
  rfl

/-- C6 amended witness at k = 64. -/
theorem claim_C6_amended_witness :
    get_num_outcomes_u64 64 = 0 ∧ get_all_outcomes_u64 64 = [] :=
  claim_C6_amended 64 (by decide) (by norm_num)

/-- C7 counterexample: run 1 0 constructs an expected EmpiricalResult whose
probability is 0.0 / 0.0 = NaN (modelled none), which is not in [0, 1]; so not every
EmpiricalResult constructed by the core has probability in [0, 1]. -/
theorem claim_C7_counterexample :
    ¬ probInUnitInterval (run 1 0 (fun _ _ => Coin.Heads)).expected.probability := by
  intro hcontra
  obtain ⟨q, hq, _⟩ := hcontra
  rw [show (run 1 0 (fun _ _ => Coin.Heads)).expected.probability = none from rfl] at hq
  exact Option.noConfusion hq

/-- C7 amended: when iterations > 0, every EmpiricalResult constructed by run (each
results entry and the expected result) has probability in the closed interval
[0, 1]. -/
theorem claim_C7_amended (k iterations : Nat) (draw : Nat → Nat → Coin)
    (hpos : 0 < iterations) :
    (∀ e ∈ (run k iterations draw).results, probInUnitInterval e.2.probability) ∧
    probInUnitInterval (run k iterations draw).expected.probability := by
  have hne0 : iterations ≠ 0 := Nat.pos_iff_ne_zero.mp hpos
  have hq : (0 : ℚ) < iterations := by exact_mod_cast hpos
  constructor
  · intro e he
    unfold run CoinFlipResult.new at he
    obtain ⟨a, ha, rfl⟩ := List.mem_map.mp he
    have hcount : a.2 ≤ iterations := by
      have hb := count_le_sumCounts ha
      rw [sumCounts_runTally] at hb
      exact hb
    refine ⟨(a.2 : ℚ) / iterations, ?_, ?_, ?_⟩
    · simp [EmpiricalResult.new, hne0]
    · positivity
    · rw [div_le_one hq]
      exact_mod_cast hcount
  · have hcount : iterations / 2 ^ k ≤ iterations := Nat.div_le_self _ _
    refine ⟨((iterations / 2 ^ k : Nat) : ℚ) / iterations, ?_, ?_, ?_⟩
    · simp [run, CoinFlipResult.new, EmpiricalResult.expected, EmpiricalResult.new,
        get_num_outcomes, hne0]
    · positivity
    · rw [div_le_one hq]
      exact_mod_cast hcount

/-- C7 amended witness at k = 1, iterations = 2, all draws Heads. -/
theorem claim_C7_amended_witness :
    (∀ e ∈ (run 1 2 (fun _ _ => Coin.Heads)).results,
      probInUnitInterval e.2.probability) ∧
    probInUnitInterval (run 1 2 (fun _ _ => Coin.Heads)).expected.probability :=
  claim_C7_amended 1 2 (fun _ _ => Coin.Heads) (by decide)

/-- C8: for every N > 0 and every draw oracle, run 0 N has exactly one results entry,
keyed by the empty string, with count N and probability 1, and expected.count = N;
no error occurs (run is total). -/
theorem claim_C8 (N : Nat) (draw : Nat → Nat → Coin) (hpos : 0 < N) :
    (run 0 N draw).results = [([], { count := N, probability := some 1 })] ∧
    (run 0 N draw).expected.count = N := by
  have hne0 : N ≠ 0 := Nat.pos_iff_ne_zero.mp hpos
  constructor
  · unfold run CoinFlipResult.new
    rw [runTally_zero_flips]
    simp [EmpiricalResult.new, hne0]
  · unfold run CoinFlipResult.new EmpiricalResult.expected EmpiricalResult.new
      get_num_outcomes
    simp

/-- C8 witness at N = 2. -/
theorem claim_C8_witness :
    (run 0 2 (fun _ _ => Coin.Heads)).results =
      [([], { count := 2, probability := some 1 })] ∧
    (run 0 2 (fun _ _ => Coin.Heads)).expected.count = 2 :=
  claim_C8 2 (fun _ _ => Coin.Heads) (by decide)

/-- C9: the results mapping of run(k, iterations) lists its entries in ascending
lexicographic order of the outcome key, with unique keys, for every draw oracle. -/
theorem claim_C9 (k iterations : Nat) (draw : Nat → Nat → Coin) :
    List.Sorted (List.Lex (· < ·)) (keysOf (run k iterations draw).results) ∧
    (keysOf (run k iterations draw).results).Nodup := by
  rw [keysOf_run_results k iterations draw]
  exact ⟨sorted_get_all_outcomes k, nodup_get_all_outcomes k⟩

/-- C10: the iterations field of the CoinFlipResult returned by run equals the
iterations argument, for every k, iterations, and draw oracle. -/
theorem claim_C10 (k iterations : Nat) (draw : Nat → Nat → Coin) :
    (run k iterations draw).iterations = iterations := rfl

end CoinFlipSim
